import Mathlib

/-!
Shallow embedding of pyMec's `geometry.py` (module `pyMec.geometry`), with
theorems settling the specification's claims about it.

Conventions of the embedding:

* Python strings, `uuid.uuid4().hex` tokens and filesystem paths are Lean
  `String`s.
* Python `float` coordinates are IEEE-754 binary64 values, carried as the
  exact rationals `ℚ` they denote; every arithmetic operation rounds its
  exact result back to the binary64 grid with `rnd` (round to nearest, ties
  to even, 53-bit significand).  The exponent is taken unbounded
  (FLX-style), so exponent overflow/underflow, infinities, NaNs and signed
  zeros are outside the model; no claim here involves them.
* `datetime.now()` is ambient input: `save_to_file` takes the current time as
  an extra `Nat` argument (`now`).
* The filesystem is explicit state: an association list from paths to the
  pickled triple; `pickle.dump` / `pickle.load` are modelled as the identity
  on the stored Lean values, and `open(..., 'bw')` as overwriting insertion.
* Python exceptions are modelled by `Except Err` (or an error component of
  the result); mutation of `self` is modelled by returning the updated
  session — also when an exception is raised after a mutation, as happens in
  `save_to_file`, so the post-raise state is observable.
* `fuzzywuzzy.fuzz.ratio` is an external library, not part of this
  repository; it is modelled as an abstract score function parameter
  `ratio : String → String → Nat`.
* `PyMecObject` carries the attributes every workspace member has (`uid`,
  `name`); `isinstance(obj, PyMecObject)` is a static fact in the embedding.
-/

namespace PyMec

/-- Error kinds raised by the Python code, named after the spec's error
taxonomy (§7).  `notFound` models the `TypeError` raised when
`PyMecSession.delete` subscripts the `None` returned by a failed
`search_by_uid`; `fileAlreadyExists` and `workspaceNotEmpty` both are
`FileExistsError` in Python, distinguished by message; `valueError` models
`max([])`'s `ValueError`; `keyError` a missing `'filename'` header key. -/
inductive Err where
  | typeError
  | valueError
  | keyError
  | notFound
  | fileAlreadyExists
  | workspaceNotEmpty
  | fileNotFound
  deriving DecidableEq, Repr

/-- `PyMecObject.__init__`: a uid (uuid4 hex, assigned at construction) and a
mutable name.  Only these two attributes are read by the session layer. -/
structure PyMecObject where
  uid : String
  name : String
  deriving DecidableEq, Repr

/-- The session's `__header` dict.  The code touches exactly the keys
`'filename'` (a `pathlib.Path`, here a `String`) and `'savedate'` (a
`datetime`, here a `Nat`); all other entries are carried opaquely in
`extra` (`add_to_header` merges into it). -/
structure Header where
  filename : Option String
  savedate : Option Nat
  extra : List (String × String)
  deriving DecidableEq, Repr

/-- `PyMecSession.__init__`: empty workspace, fixed common header
`{'pyMec version': __version__}`, empty header. -/
structure PyMecSession where
  workspace : List PyMecObject
  header_common : List (String × String)
  header : Header
  deriving DecidableEq, Repr

/-- A fresh `PyMecSession()`. -/
def emptySession : PyMecSession :=
  { workspace := []
    header_common := [("pyMec version", "0.0.1")]
    header := { filename := none, savedate := none, extra := [] } }

/-- `PyMecSession.append`: `self.__workspace.append(obj)`.  The
`isinstance(obj, PyMecObject)` guard is statically true in the embedding
(every `PyMecObject` value carries the identity attributes). -/
def PyMecSession.append (s : PyMecSession) (obj : PyMecObject) : PyMecSession :=
  { s with workspace := s.workspace ++ [obj] }

/-- Scan loop of `PyMecSession.search_by_uid`: first object whose `uid`
matches, together with its index, counting from `i`. -/
def searchByUidAux (uid : String) : List PyMecObject → Nat → Option (PyMecObject × Nat)
  | [], _ => none
  | o :: rest, i => if o.uid = uid then some (o, i) else searchByUidAux uid rest (i + 1)

/-- `PyMecSession.search_by_uid`: returns the single matching
`(object, index)` pair, `none` (Python `None`) if the uid is absent. -/
def PyMecSession.search_by_uid (s : PyMecSession) (uid : String) : Option (PyMecObject × Nat) :=
  searchByUidAux uid s.workspace 0

/-- `PyMecSession.delete`: `self.__workspace.pop(result[0][1])` where
`result = self.search_by_uid(obj.uid)`.  When the uid is absent,
`search_by_uid` returns `None` and subscripting it raises (modelled as
`Err.notFound`, the spec's name for this failure). -/
def PyMecSession.delete (s : PyMecSession) (obj : PyMecObject) : Except Err PyMecSession :=
  match s.search_by_uid obj.uid with
  | none => .error .notFound
  | some (_, i) => .ok { s with workspace := s.workspace.eraseIdx i }

/-- `PyMecSession.wipe_workspace`: `del self.__workspace[:]`. -/
def PyMecSession.wipe_workspace (s : PyMecSession) : PyMecSession :=
  { s with workspace := [] }

/-- Python's `max` on a list: raises `ValueError` on an empty sequence. -/
def pyMax : List Nat → Except Err Nat
  | [] => .error .valueError
  | x :: xs => .ok (xs.foldl max x)

/-- `PyMecSession.search_by_name`:
`scores = [fuzz.ratio(obj.name, name) for obj in ws]`, `best = max(scores)`
(raises on an empty workspace), returns `[]` when `best < 70`, otherwise
`[(x, i) for i, x in enumerate(ws) if scores[i] == best]`.
`ratio` stands for the external `fuzz.ratio`; `scores[i]` is literally
`ratio ws[i].name name`, recomputed here in the filter. -/
def PyMecSession.search_by_name (ratio : String → String → Nat) (s : PyMecSession)
    (name : String) : Except Err (List (PyMecObject × Nat)) :=
  let scores := s.workspace.map (fun o => ratio o.name name)
  match pyMax scores with
  | .error e => .error e
  | .ok best =>
    if best < 70 then .ok []
    else .ok (((s.workspace.enum).filter
        (fun p => ratio p.2.name name = best)).map (fun p => (p.2, p.1)))

/-- One step of Python `dict.update`: an existing key keeps its position
and gets the new value; a new key is appended. -/
def dictUpd (d : List (String × String)) (kv : String × String) : List (String × String) :=
  if d.any (fun e => e.1 == kv.1) then
    d.map (fun e => if e.1 == kv.1 then (e.1, kv.2) else e)
  else d ++ [kv]

/-- `PyMecSession.add_to_header`: `self.__header.update(header)`, restricted
to the opaque entries (the code never updates `filename`/`savedate` through
it in the claims considered); colliding keys are overwritten in place, new
keys appended, following `dict.update`. -/
def PyMecSession.add_to_header (s : PyMecSession) (kvs : List (String × String)) : PyMecSession :=
  { s with header := { s.header with extra := kvs.foldl dictUpd s.header.extra } }

/-- The pickled triple `[header_common, header, workspace]` written by
`save_to_file`; `load_file`'s `len(loaded) != 3` check is satisfied by
construction here. -/
structure SavedFile where
  header_common : List (String × String)
  header : Header
  workspace : List PyMecObject
  deriving DecidableEq, Repr

/-- The filesystem: an association list from paths to saved files; the most
recent write for a path shadows older ones. -/
abbrev FS : Type := List (String × SavedFile)

/-- `filepath.exists()` / `open(filepath, 'br')`. -/
def fsRead (fs : FS) (p : String) : Option SavedFile :=
  ((fs : List (String × SavedFile)).find? (fun e => e.1 == p)).map Prod.snd

/-- `open(filepath, 'bw'); pickle.dump(...)`: (over)write the file at `p`. -/
def fsWrite (fs : FS) (p : String) (sf : SavedFile) : FS :=
  ((p, sf) :: (fs : List (String × SavedFile)) : List (String × SavedFile))

/-- Body of `save_to_file` after the path is resolved: sets
`header['filename']` and `header['savedate']` FIRST (as the Python does),
then checks `filepath.exists() and not overwrite` and raises, else writes
the triple.  The returned session carries the header mutation in both
branches. -/
def saveCore (s : PyMecSession) (filepath : String) (overwrite : Bool) (now : Nat)
    (fs : FS) : PyMecSession × Except Err FS :=
  let s' : PyMecSession :=
    { s with header := { s.header with filename := some filepath, savedate := some now } }
  if (fsRead fs filepath).isSome && !overwrite then
    (s', .error .fileAlreadyExists)
  else
    (s', .ok (fsWrite fs filepath ⟨s'.header_common, s'.header, s'.workspace⟩))

/-- `PyMecSession.save_to_file(filename=None, overwrite=False)`: resolves the
path from the argument or `self.__header['filename']` (a missing key raises
`KeyError`), then runs `saveCore`.  `datetime.now()` is the `now` argument;
`mkdir(parents=True, exist_ok=True)` has no observable effect in this
filesystem model. -/
def PyMecSession.save_to_file (s : PyMecSession) (filename : Option String)
    (overwrite : Bool) (now : Nat) (fs : FS) : PyMecSession × Except Err FS :=
  match filename with
  | some f => saveCore s f overwrite now fs
  | none =>
    match s.header.filename with
    | some f => saveCore s f overwrite now fs
    | none => (s, .error .keyError)

/-- Body of `load_file` after the guard and path resolution: reads and
unpickles the file, then wholesale-replaces common header, header and
workspace. -/
def loadCore (s : PyMecSession) (filepath : String) (fs : FS) :
    PyMecSession × Except Err Unit :=
  match fsRead fs filepath with
  | none => (s, .error .fileNotFound)
  | some sf =>
    ({ workspace := sf.workspace, header_common := sf.header_common, header := sf.header },
      .ok ())

/-- `PyMecSession.load_file(filename=None, overwrite=False)`: first the guard
`if self.__workspace and not overwrite: raise`, then path resolution as in
`save_to_file`, then `loadCore`. -/
def PyMecSession.load_file (s : PyMecSession) (filename : Option String)
    (overwrite : Bool) (fs : FS) : PyMecSession × Except Err Unit :=
  if !s.workspace.isEmpty && !overwrite then
    (s, .error .workspaceNotEmpty)
  else
    match filename with
    | some f => loadCore s f fs
    | none =>
      match s.header.filename with
      | some f => loadCore s f fs
      | none => (s, .error .keyError)

/-- Round-to-nearest integer, ties to even: the integer-rounding core of
IEEE-754 round-to-nearest-even, applied to the scaled significand. -/
def rneInt (m : ℚ) : ℤ :=
  if m - ⌊m⌋ < 1/2 then ⌊m⌋
  else if 1/2 < m - ⌊m⌋ then ⌊m⌋ + 1
  else if 2 ∣ ⌊m⌋ then ⌊m⌋ else ⌊m⌋ + 1

/-- Binary64 rounding of a positive rational: scale by the power of two
that puts the value into the 53-bit significand range `[2^52, 2^53)`,
round to an integer (ties to even), scale back. -/
def rndPos (y : ℚ) : ℚ :=
  ((rneInt (y / 2 ^ (Int.log 2 y - 52)) : ℚ)) * 2 ^ (Int.log 2 y - 52)

/-- Rounding of an arbitrary rational to the binary64 grid (round to
nearest, ties to even, 53-bit precision, unbounded exponent).  This is the
rounding every Python float operation applies to its exact result. -/
def rnd (x : ℚ) : ℚ :=
  if 0 < x then rndPos x
  else if x < 0 then -rndPos (-x)
  else 0

/-- Python float addition: the exact sum, rounded. -/
def fladd (x y : ℚ) : ℚ := rnd (x + y)

/-- Python float subtraction: the exact difference, rounded. -/
def flsub (x y : ℚ) : ℚ := rnd (x - y)

/-- Python float multiplication: the exact product, rounded. -/
def flmul (x y : ℚ) : ℚ := rnd (x * y)

/-- `Vector.__init__`: a name (from `PyMecObject`) and a coordinate list.
Coordinates are binary64 floats, carried as the exact rationals they
denote; the arithmetic below rounds after every operation.  The uuid
identity is irrelevant to `Vector.__eq__` (which reads only
`coordinates`) and is omitted from the geometric embedding. -/
structure Vector where
  name : String
  coordinates : List ℚ
  deriving DecidableEq, Repr

/-- `Vector.dim`: `len(self.coordinates)`. -/
def Vector.dim (v : Vector) : Nat := v.coordinates.length

/-- Componentwise float sum, `[sum(x) for x in zip(a, b)]`. -/
def addCoords (a b : List ℚ) : List ℚ := (a.zip b).map (fun p => fladd p.1 p.2)

/-- Componentwise float difference, `[x[0] - x[1] for x in zip(a, b)]`. -/
def subCoords (a b : List ℚ) : List ℚ := (a.zip b).map (fun p => flsub p.1 p.2)

/-- `Vector.__add__`: `check_dim` raises `ValueError` on unequal dimension,
else a new (unnamed) componentwise-sum vector. -/
def Vector.add (a b : Vector) : Except Err Vector :=
  if a.dim ≠ b.dim then .error .valueError
  else .ok ⟨"", addCoords a.coordinates b.coordinates⟩

/-- `Vector.__sub__`: like `__add__`, componentwise difference. -/
def Vector.sub (a b : Vector) : Except Err Vector :=
  if a.dim ≠ b.dim then .error .valueError
  else .ok ⟨"", subCoords a.coordinates b.coordinates⟩

/-- `Vector.__mul__`: `[num * coord for coord in self.coordinates]`,
each float product rounded. -/
def Vector.mul (v : Vector) (num : ℚ) : Vector :=
  ⟨"", v.coordinates.map (fun c => flmul num c)⟩

/-- `Vector.__eq__`: `self.coordinates == vector.coordinates` (value
equality on coordinates; names and identity play no part). -/
def Vector.eq (a b : Vector) : Bool := decide (a.coordinates = b.coordinates)

/-- `Vector.cross_product`: `check_dim`, then a dimension-3 guard
(`ValueError` otherwise), then
`[c[(i+1)%3]*v[(i+2)%3] - c[(i+2)%3]*v[(i+1)%3] for i in range(3)]`, each
float product and the float difference rounded.  List indexing uses
`getD _ 0`; the guards keep every index in bounds. -/
def Vector.cross_product (a b : Vector) : Except Err Vector :=
  if a.dim ≠ b.dim then .error .valueError
  else if a.dim ≠ 3 then .error .valueError
  else .ok ⟨"", (List.range 3).map (fun i =>
    flsub
      (flmul (a.coordinates.getD ((i + 1) % 3) 0) (b.coordinates.getD ((i + 2) % 3) 0))
      (flmul (a.coordinates.getD ((i + 2) % 3) 0) (b.coordinates.getD ((i + 1) % 3) 0)))⟩

/-- `Point`: a positional wrapper around a `Vector` (`self._position`). -/
structure Point where
  name : String
  position : Vector
  deriving DecidableEq, Repr

/-- `Segment`: a start and an end `Point`. -/
structure Segment where
  name : String
  start : Point
  end_ : Point
  deriving DecidableEq, Repr

/-- `Contour`: an ordered list of `Segment`s (`self._segment_list`). -/
structure Contour where
  name : String
  segments : List Segment
  deriving DecidableEq, Repr

/-- `Contour.add_segment`: appends to `self._segment_list`. -/
def Contour.add_segment (c : Contour) (s : Segment) : Contour :=
  { c with segments := c.segments ++ [s] }

/-- Placeholder segment used as the (never reached) default of in-bounds
`getD` lookups in index-formulated contour properties. -/
def dummySegment : Segment :=
  ⟨"", ⟨"", ⟨"", []⟩⟩, ⟨"", ⟨"", []⟩⟩⟩

/-- Modelled from the spec: `Contour.is_closed` is absent from
`src/pyMec/geometry.py` (only the repository's tests call it).  Spec §4.5:
"true iff, walking the segment list in order and wrapping from the last
segment back to the first, each segment's end point equals the next
segment's start point (value equality on position coordinates); a contour
of fewer than 3 segments is never closed."  The wrap-around walk is the
pointwise comparison of the segment list with its rotation by one. -/
def Contour.is_closed (c : Contour) : Bool :=
  if c.segments.length < 3 then false
  else (c.segments.zip (c.segments.rotate 1)).all
    (fun p => decide (p.1.end_.position.coordinates = p.2.start.position.coordinates))

/-! ### Concrete objects and sessions used by witnesses and counterexamples -/

/-- A concrete workspace object. -/
def objA : PyMecObject := ⟨"a1b2c3", "alpha"⟩

/-- A second concrete workspace object with a distinct uid. -/
def objB : PyMecObject := ⟨"d4e5f6", "beta"⟩

/-- A concrete header holding a previously saved filename and savedate. -/
def headerOld : Header := ⟨some "old.pymec", some 0, [("author", "yr")]⟩

/-- A concrete populated session whose header carries `headerOld`. -/
def sessionC1 : PyMecSession := ⟨[objA], [("pyMec version", "0.0.1")], headerOld⟩

/-- A concrete filesystem in which the path `"target.pymec"` already exists. -/
def fsC1 : FS :=
  (([("target.pymec", (⟨[], ⟨none, none, []⟩, []⟩ : SavedFile))] :
    List (String × SavedFile)) : FS)

/-- Pairwise-distinct uids across the workspace, as nodup of the uid list. -/
def uidsDistinct (s : PyMecSession) : Prop :=
  (s.workspace.map PyMecObject.uid).Nodup

instance (s : PyMecSession) : Decidable (uidsDistinct s) := by
  unfold uidsDistinct
  infer_instance

/-! ### C1 — save_to_file on an existing target -/

/-- C1 counterexample: on the concrete session `sessionC1`, saving to the
existing path `"target.pymec"` with `overwrite = false` does fail with
FileAlreadyExists, but the header's `filename` entry after the failed call
differs from its value before it — refuting "no partial mutation on
failure". -/
theorem save_existing_target_mutates_header :
    ((sessionC1.save_to_file (some "target.pymec") false 5 fsC1).2 =
        Except.error Err.fileAlreadyExists) ∧
      (sessionC1.save_to_file (some "target.pymec") false 5 fsC1).1.header.filename ≠
        sessionC1.header.filename ∧
      (sessionC1.save_to_file (some "target.pymec") false 5 fsC1).1.header.savedate ≠
        sessionC1.header.savedate :=
  ⟨rfl, by decide, by decide⟩

/-- C1 (amended): with `overwrite = false` and an existing target, the call
fails with FileAlreadyExists and writes nothing, but before failing it has
already updated the header's `filename` to the target path and `savedate`
to the current time; the workspace, the common header and all other header
entries are unchanged. -/
theorem save_existing_target_fails_after_header_update (s : PyMecSession) (p : String)
    (now : Nat) (fs : FS) (h : (fsRead fs p).isSome = true) :
    s.save_to_file (some p) false now fs =
      ({ s with header := { s.header with filename := some p, savedate := some now } },
        Except.error Err.fileAlreadyExists) := by
  simp [PyMecSession.save_to_file, saveCore, h]

/-- C1 witness: the amended statement evaluated on `sessionC1`. -/
theorem save_existing_target_fails_after_header_update_witness :
    sessionC1.save_to_file (some "target.pymec") false 5 fsC1 =
      ({ sessionC1 with
          header := { sessionC1.header with
            filename := some "target.pymec", savedate := some 5 } },
        Except.error Err.fileAlreadyExists) :=
  save_existing_target_fails_after_header_update sessionC1 "target.pymec" 5 fsC1 (by decide)

/-! ### C2 — uid uniqueness across the workspace -/

/-- C2 counterexample: `append` performs no uid check, so appending the very
same object twice yields a workspace with two entries carrying the same
uid — refuting "uid uniqueness enforced across all members". -/
theorem append_same_object_duplicates_uid :
    ¬ uidsDistinct ((emptySession.append objA).append objA) := by
  decide

/-- C2 (amended): uid distinctness is preserved by the workspace operations
only conditionally for `append`: starting from a session with pairwise
distinct uids, `append obj` preserves distinctness exactly when `obj`'s uid
is not already in the workspace (no check is performed by `append` itself),
while `delete` and `wipe_workspace` preserve it unconditionally. -/
theorem uid_uniqueness_conditional (s : PyMecSession) (h : uidsDistinct s) :
    (∀ obj : PyMecObject,
        (uidsDistinct (s.append obj) ↔ obj.uid ∉ s.workspace.map PyMecObject.uid)) ∧
      (∀ obj s', s.delete obj = Except.ok s' → uidsDistinct s') ∧
      uidsDistinct s.wipe_workspace := by
  refine ⟨?_, ?_, ?_⟩
  · intro obj
    simp [uidsDistinct, PyMecSession.append, List.nodup_append, List.disjoint_singleton]
    intro _
    exact h
  · intro obj s' hdel
    unfold PyMecSession.delete at hdel
    rcases hfind : s.search_by_uid obj.uid with _ | ⟨o, i⟩ <;> rw [hfind] at hdel
    · exact absurd hdel (by simp)
    · have hs' : s' = { s with workspace := s.workspace.eraseIdx i } := by
        simpa using hdel.symm
      subst hs'
      exact List.Nodup.sublist (List.Sublist.map _ (List.eraseIdx_sublist _ i)) h
  · simp [uidsDistinct, PyMecSession.wipe_workspace]

/-- C2 witness: the amended statement applied to the concrete distinct-uid
session `[objA]`, instantiated at the fresh object `objB`. -/
theorem uid_uniqueness_conditional_witness :
    uidsDistinct ((emptySession.append objA).append objB) :=
  ((uid_uniqueness_conditional (emptySession.append objA) (by decide)).1 objB).mpr
    (by decide)

/-! ### C3 — load_file guard on a non-empty workspace -/

/-- C3: on a session with a non-empty workspace and `overwrite = false`,
`load_file` fails with WorkspaceNotEmpty and the returned session is the
input session itself — common header, header and workspace all unchanged;
the guard runs before any path resolution or file read. -/
theorem load_file_nonempty_guard (s : PyMecSession) (fn : Option String) (fs : FS)
    (h : s.workspace ≠ []) :
    s.load_file fn false fs = (s, Except.error Err.workspaceNotEmpty) := by
  simp [PyMecSession.load_file, h]

/-- C3 witness: the guard evaluated on the concrete session `[objA]`. -/
theorem load_file_nonempty_guard_witness :
    (emptySession.append objA).load_file (some "f.pymec") false fsC1 =
      (emptySession.append objA, Except.error Err.workspaceNotEmpty) :=
  load_file_nonempty_guard (emptySession.append objA) (some "f.pymec") fsC1 (by decide)

/-! ### C10 — search_by_name on an empty workspace -/

/-- C10: on an empty workspace, `search_by_name` does not return an empty
result but raises — `max([])` raises ValueError — for every query name and
every score function. -/
theorem search_by_name_empty_workspace_raises (ratio : String → String → Nat)
    (s : PyMecSession) (name : String) (h : s.workspace = []) :
    s.search_by_name ratio name = Except.error Err.valueError := by
  simp [PyMecSession.search_by_name, h, pyMax]

/-- C10 witness: the empty-workspace failure evaluated on `emptySession`. -/
theorem search_by_name_empty_workspace_raises_witness :
    emptySession.search_by_name (fun _ _ => 0) "alpha" = Except.error Err.valueError :=
  search_by_name_empty_workspace_raises (fun _ _ => 0) emptySession "alpha" rfl

/-! ### Binary64 rounding: symbolic lemmas and concrete evaluations -/

theorem rnd_zero : rnd 0 = 0 := rfl

theorem int_log_eq_of_bounds (y : ℚ) (k : ℤ) (hy : 0 < y)
    (h1 : 2 ^ k ≤ y) (h2 : y < 2 ^ (k + 1)) : Int.log 2 y = k := by
  have hlb : ((2:ℕ):ℚ) ^ (Int.log 2 y) ≤ y := Int.zpow_log_le_self (by norm_num) hy
  have hub : y < ((2:ℕ):ℚ) ^ (Int.log 2 y + 1) := Int.lt_zpow_succ_log_self (by norm_num) y
  push_cast at hlb hub
  by_contra hne
  rcases lt_or_gt_of_ne hne with hlt | hgt
  · have hle : (2:ℚ) ^ (Int.log 2 y + 1) ≤ 2 ^ k :=
      zpow_le_zpow_right₀ (by norm_num) (by omega)
    linarith
  · have hle : (2:ℚ) ^ (k + 1) ≤ 2 ^ (Int.log 2 y) :=
      zpow_le_zpow_right₀ (by norm_num) (by omega)
    linarith

/-- Evaluation rule for `rnd` once the binade of the argument is known. -/
theorem rnd_eval (y : ℚ) (k : ℤ) (hy : 0 < y) (h1 : 2 ^ k ≤ y) (h2 : y < 2 ^ (k + 1)) :
    rnd y = (rneInt (y / 2 ^ (k - 52)) : ℚ) * 2 ^ (k - 52) := by
  rw [rnd, if_pos hy, rndPos, int_log_eq_of_bounds y k hy h1 h2]

theorem rneInt_intCast (n : ℤ) : rneInt (n : ℚ) = n := by
  simp [rneInt, Int.floor_intCast]

theorem rneInt_lb (m : ℚ) : ⌊m⌋ ≤ rneInt m := by
  rw [rneInt]
  split
  · omega
  · split
    · omega
    · split <;> omega

theorem rneInt_ub (m : ℚ) : rneInt m ≤ ⌊m⌋ + 1 := by
  rw [rneInt]
  split
  · omega
  · split
    · omega
    · split <;> omega

/-- Rounding commutes with negation (IEEE round-to-nearest-even is
sign-symmetric). -/
theorem rnd_neg (x : ℚ) : rnd (-x) = -rnd x := by
  rcases lt_trichotomy x 0 with hx | rfl | hx
  · simp only [rnd]
    rw [if_pos (by linarith : (0:ℚ) < -x), if_neg (by linarith : ¬ (0:ℚ) < x),
      if_pos hx, neg_neg]
  · simp [rnd]
  · simp only [rnd]
    rw [if_neg (by linarith : ¬ (0:ℚ) < -x), if_pos (by linarith : -x < (0:ℚ)),
      if_pos hx, neg_neg]

/-- A value already on the binary64 grid (53-bit significand, any
exponent) is a fixed point of `rnd`. -/
theorem rnd_of_sig (n e : ℤ) (h1 : 2 ^ 52 ≤ n) (h2 : n < 2 ^ 53) :
    rnd ((n : ℚ) * 2 ^ e) = (n : ℚ) * 2 ^ e := by
  have hn0 : (0:ℚ) < (n:ℚ) := by
    have hz : (0:ℤ) < n := lt_of_lt_of_le (by norm_num) h1
    exact_mod_cast hz
  have h2e : (0:ℚ) < 2 ^ e := by positivity
  have hy : 0 < (n:ℚ) * 2 ^ e := by positivity
  have hk1 : (2:ℚ) ^ (52 + e) ≤ (n:ℚ) * 2 ^ e := by
    rw [zpow_add₀ (by norm_num : (2:ℚ) ≠ 0)]
    have hle : (2:ℚ) ^ (52:ℤ) ≤ (n:ℚ) := by
      have hcast : ((2^52 : ℤ) : ℚ) ≤ (n : ℚ) := by exact_mod_cast h1
      calc (2:ℚ) ^ (52:ℤ) = ((2^52 : ℤ) : ℚ) := by norm_num
        _ ≤ (n:ℚ) := hcast
    exact mul_le_mul_of_nonneg_right hle (le_of_lt h2e)
  have hk2 : (n:ℚ) * 2 ^ e < 2 ^ (52 + e + 1) := by
    rw [show (52:ℤ) + e + 1 = 53 + e by ring, zpow_add₀ (by norm_num : (2:ℚ) ≠ 0)]
    have hlt : (n:ℚ) < (2:ℚ) ^ (53:ℤ) := by
      have hcast : (n : ℚ) < ((2^53 : ℤ) : ℚ) := by exact_mod_cast h2
      calc (n:ℚ) < ((2^53 : ℤ) : ℚ) := hcast
        _ = (2:ℚ) ^ (53:ℤ) := by norm_num
    exact mul_lt_mul_of_pos_right hlt h2e
  rw [rnd_eval _ (52 + e) hy hk1 hk2]
  have harg : (n:ℚ) * 2 ^ e / 2 ^ (52 + e - 52) = (n:ℚ) := by
    rw [show (52:ℤ) + e - 52 = e by ring]
    field_simp
  rw [harg, rneInt_intCast, show (52:ℤ) + e - 52 = e by ring]

/-- Every positive rounding result lies on the grid: it is an integer
significand in `[2^52, 2^53]` times a power of two. -/
theorem rnd_pos_out (y : ℚ) (hy : 0 < y) :
    ∃ n e : ℤ, rnd y = (n : ℚ) * 2 ^ e ∧ 2 ^ 52 ≤ n ∧ n ≤ 2 ^ 53 := by
  have h1 : ((2:ℕ):ℚ) ^ (Int.log 2 y) ≤ y := Int.zpow_log_le_self (by norm_num) hy
  have h2 : y < ((2:ℕ):ℚ) ^ (Int.log 2 y + 1) := Int.lt_zpow_succ_log_self (by norm_num) y
  push_cast at h1 h2
  set k := Int.log 2 y with hk
  refine ⟨rneInt (y / 2 ^ (k - 52)), k - 52, rnd_eval y k hy h1 h2, ?_, ?_⟩
  · have hm : (2:ℚ) ^ (52:ℤ) ≤ y / 2 ^ (k - 52) := by
      rw [le_div_iff₀ (by positivity)]
      calc (2:ℚ) ^ (52:ℤ) * 2 ^ (k - 52) = 2 ^ k := by
            rw [← zpow_add₀ (by norm_num : (2:ℚ) ≠ 0)]
            norm_num
        _ ≤ y := h1
    have hfl : (2^52 : ℤ) ≤ ⌊y / 2 ^ (k - 52)⌋ := by
      rw [Int.le_floor]
      calc ((2^52 : ℤ) : ℚ) = (2:ℚ) ^ (52:ℤ) := by norm_num
        _ ≤ y / 2 ^ (k - 52) := hm
    calc (2^52 : ℤ) ≤ ⌊y / 2 ^ (k - 52)⌋ := hfl
      _ ≤ rneInt (y / 2 ^ (k - 52)) := rneInt_lb _
  · have hm : y / 2 ^ (k - 52) < (2:ℚ) ^ (53:ℤ) := by
      rw [div_lt_iff₀ (by positivity)]
      calc y < 2 ^ (k + 1) := h2
        _ = (2:ℚ) ^ (53:ℤ) * 2 ^ (k - 52) := by
            rw [← zpow_add₀ (by norm_num : (2:ℚ) ≠ 0)]
            congr 1
            ring
    have hfl : ⌊y / 2 ^ (k - 52)⌋ < (2^53 : ℤ) := by
      rw [Int.floor_lt]
      calc y / 2 ^ (k - 52) < (2:ℚ) ^ (53:ℤ) := hm
        _ = ((2^53 : ℤ) : ℚ) := by norm_num
    calc rneInt (y / 2 ^ (k - 52)) ≤ ⌊y / 2 ^ (k - 52)⌋ + 1 := rneInt_ub _
      _ ≤ 2^53 := by omega

theorem rnd_rnd_of_pos (y : ℚ) (hy : 0 < y) : rnd (rnd y) = rnd y := by
  obtain ⟨n, e, hrep, hn1, hn2⟩ := rnd_pos_out y hy
  rw [hrep]
  rcases lt_or_eq_of_le hn2 with hlt | heq
  · exact rnd_of_sig n e hn1 hlt
  · have hsplit : ((n : ℚ)) * 2 ^ e = ((2^52 : ℤ) : ℚ) * 2 ^ (e + 1) := by
      subst heq
      push_cast
      rw [zpow_add₀ (by norm_num : (2:ℚ) ≠ 0) e 1]
      ring
    rw [hsplit, rnd_of_sig (2^52) (e+1) (by norm_num) (by norm_num)]

/-- Rounding is idempotent: every float-operation result is itself a
representable float (the IEEE closure property). -/
theorem rnd_rnd (x : ℚ) : rnd (rnd x) = rnd x := by
  rcases lt_trichotomy x 0 with hx | rfl | hx
  · have hpos : 0 < -x := by linarith
    calc rnd (rnd x) = rnd (-(rnd (-x))) := by rw [← rnd_neg, neg_neg]
      _ = -(rnd (rnd (-x))) := rnd_neg _
      _ = -(rnd (-x)) := by rw [rnd_rnd_of_pos (-x) hpos]
      _ = rnd x := by rw [rnd_neg, neg_neg]
  · simp [rnd]
  · exact rnd_rnd_of_pos x hx

theorem rnd_one : rnd 1 = 1 :=
  (rnd_eval 1 0 (by norm_num) (by norm_num) (by norm_num)).trans (by norm_num [rneInt])

theorem rnd_two : rnd 2 = 2 :=
  (rnd_eval 2 1 (by norm_num) (by norm_num) (by norm_num)).trans (by norm_num [rneInt])

theorem rnd_three : rnd 3 = 3 :=
  (rnd_eval 3 1 (by norm_num) (by norm_num) (by norm_num)).trans (by norm_num [rneInt])

theorem rnd_four : rnd 4 = 4 :=
  (rnd_eval 4 2 (by norm_num) (by norm_num) (by norm_num)).trans (by norm_num [rneInt])

theorem rnd_six : rnd 6 = 6 :=
  (rnd_eval 6 2 (by norm_num) (by norm_num) (by norm_num)).trans (by norm_num [rneInt])

theorem rnd_eight : rnd 8 = 8 :=
  (rnd_eval 8 3 (by norm_num) (by norm_num) (by norm_num)).trans (by norm_num [rneInt])

theorem rnd_twelve : rnd 12 = 12 :=
  (rnd_eval 12 3 (by norm_num) (by norm_num) (by norm_num)).trans (by norm_num [rneInt])

theorem rnd_eighteen : rnd 18 = 18 :=
  (rnd_eval 18 4 (by norm_num) (by norm_num) (by norm_num)).trans (by norm_num [rneInt])

/-! ### C6 — vector addition: commutativity and the rounded round trip -/

theorem addCoords_cons (x y : ℚ) (xs ys : List ℚ) :
    addCoords (x :: xs) (y :: ys) = fladd x y :: addCoords xs ys := rfl

theorem subCoords_cons (x y : ℚ) (xs ys : List ℚ) :
    subCoords (x :: xs) (y :: ys) = flsub x y :: subCoords xs ys := rfl

theorem fladd_comm (x y : ℚ) : fladd x y = fladd y x := by
  rw [fladd, fladd, add_comm]

theorem addCoords_comm : ∀ a b : List ℚ, addCoords a b = addCoords b a
  | [], [] => rfl
  | [], _ :: _ => rfl
  | _ :: _, [] => rfl
  | x :: xs, y :: ys => by
    rw [addCoords_cons, addCoords_cons, fladd_comm x y, addCoords_comm xs ys]

/-- The float round trip `(x ⊕ y) ⊖ y = x`, valid when `x` is representable
and the addition incurs no rounding. -/
theorem subCoords_addCoords (a : List ℚ) : ∀ b : List ℚ, a.length = b.length →
    (∀ x ∈ a, rnd x = x) →
    (∀ p ∈ a.zip b, rnd (p.1 + p.2) = p.1 + p.2) →
    subCoords (addCoords a b) b = a := by
  induction a with
  | nil =>
    intro b h _ _
    cases b with
    | nil => rfl
    | cons y ys => simp at h
  | cons x xs ih =>
    intro b h hrep hexact
    cases b with
    | nil => simp at h
    | cons y ys =>
      simp only [List.length_cons, Nat.add_right_cancel_iff] at h
      have hx : rnd (x + y) = x + y := hexact (x, y) (by simp)
      have hxx : rnd x = x := hrep x (by simp)
      rw [addCoords_cons, subCoords_cons, fladd, hx, flsub, add_sub_cancel_right, hxx,
        ih ys h (fun z hz => hrep z (by simp [hz]))
          (fun p hp => hexact p (by simp [List.zip_cons_cons, hp]))]

theorem addCoords_length (a b : List ℚ) :
    (addCoords a b).length = min a.length b.length := by
  simp [addCoords]

/-- The exact rational value of the binary64 double written `0.1` in
Python (see `rnd_tenth`). -/
def q01 : ℚ := 3602879701896397 / 2 ^ 55

/-- The binary64 value of the Python literal `0.3` (see
`rnd_three_tenths`). -/
def q03 : ℚ := 5404319552844595 / 2 ^ 54

theorem rnd_tenth : rnd (1 / 10) = q01 :=
  (rnd_eval (1 / 10) (-4) (by norm_num) (by norm_num) (by norm_num)).trans
    (by norm_num [rneInt, q01])

theorem rnd_three_tenths : rnd (3 / 10) = q03 :=
  (rnd_eval (3 / 10) (-2) (by norm_num) (by norm_num) (by norm_num)).trans
    (by norm_num [rneInt, q03])

/-- C6 counterexample: on the one-coordinate vectors holding the binary64
values of 0.1 and 0.3, the round trip fails in the program:
`(0.1 + 0.3) - 0.3` evaluates to `0.10000000000000003 ≠ 0.1` under
`Vector.__eq__` — float addition rounds `0.1 + 0.3` up to the double
`0.4`, and subtracting `0.3` back lands off the original value. -/
theorem vector_add_round_trip_cex :
    ∃ ab d, (⟨"a", [q01]⟩ : Vector).add ⟨"b", [q03]⟩ = Except.ok ab ∧
      ab.sub ⟨"b", [q03]⟩ = Except.ok d ∧ d.eq ⟨"a", [q01]⟩ = false := by
  have h1 : fladd q01 q03 = 3602879701896397 / 2 ^ 53 := by
    rw [fladd]
    exact (rnd_eval _ (-2) (by norm_num [q01, q03]) (by norm_num [q01, q03])
      (by norm_num [q01, q03])).trans (by norm_num [rneInt, q01, q03])
  have h2 : flsub (3602879701896397 / 2 ^ 53 : ℚ) q03 = 1801439850948199 / 2 ^ 54 := by
    rw [flsub]
    exact (rnd_eval _ (-4) (by norm_num [q03]) (by norm_num [q03])
      (by norm_num [q03])).trans (by norm_num [rneInt, q03])
  refine ⟨⟨"", [fladd q01 q03]⟩, ⟨"", [flsub (fladd q01 q03) q03]⟩, rfl, rfl, ?_⟩
  rw [h1, h2]
  simp only [Vector.eq, decide_eq_false_iff_not]
  norm_num [q01]

/-- C6 (amended): under binary64 float semantics, vector addition is
commutative for all equal-dimension vectors; the round trip
`(a + b) - b == a` holds whenever `a`'s coordinates are representable
(fixed points of rounding) and each componentwise addition is exact
(incurs no rounding) — in general it fails
(`vector_add_round_trip_cex`). -/
theorem vector_add_comm_and_round_trip (a b : Vector) (h : a.dim = b.dim) :
    (∃ ab ba, a.add b = Except.ok ab ∧ b.add a = Except.ok ba ∧ ab.eq ba = true) ∧
      ((∀ x ∈ a.coordinates, rnd x = x) →
        (∀ p ∈ a.coordinates.zip b.coordinates, rnd (p.1 + p.2) = p.1 + p.2) →
        ∃ ab d, a.add b = Except.ok ab ∧ ab.sub b = Except.ok d ∧ d.eq a = true) := by
  have h2 : a.coordinates.length = b.coordinates.length := h
  constructor
  · refine ⟨⟨"", addCoords a.coordinates b.coordinates⟩,
      ⟨"", addCoords b.coordinates a.coordinates⟩, ?_, ?_, ?_⟩
    · simp [Vector.add, h]
    · simp [Vector.add, h]
    · simp [Vector.eq, addCoords_comm]
  · intro hrep hexact
    refine ⟨⟨"", addCoords a.coordinates b.coordinates⟩,
      ⟨"", subCoords (addCoords a.coordinates b.coordinates) b.coordinates⟩, ?_, ?_, ?_⟩
    · simp [Vector.add, h]
    · simp [Vector.sub, Vector.dim, addCoords_length, h2]
    · simp [Vector.eq, subCoords_addCoords a.coordinates b.coordinates h2 hrep hexact]

/-- C6 witness: commutativity and the exact-case round trip, evaluated on
the concrete vectors `[1]` and `[2]` (value and sum representable, so no
rounding occurs anywhere). -/
theorem vector_add_comm_and_round_trip_witness :
    ∃ ab d, (⟨"va", [1]⟩ : Vector).add ⟨"vb", [2]⟩ = Except.ok ab ∧
      ab.sub ⟨"vb", [2]⟩ = Except.ok d ∧ d.eq ⟨"va", [1]⟩ = true :=
  (vector_add_comm_and_round_trip ⟨"va", [1]⟩ ⟨"vb", [2]⟩ rfl).2
    (by
      intro x hx
      have hx1 : x = 1 := by simpa using hx
      subst hx1
      exact rnd_one)
    (by
      intro p hp
      have hp1 : p = ((1:ℚ), (2:ℚ)) := by simpa using hp
      subst hp1
      show rnd (1 + 2) = 1 + 2
      rw [show (1:ℚ) + 2 = 3 by norm_num]
      exact rnd_three)

/-! ### C7 — cross product: anti-commutativity and parallel inputs -/

theorem flmul_comm (x y : ℚ) : flmul x y = flmul y x := by
  rw [flmul, flmul, mul_comm]

/-- Scaling a float-operation result by -1 is exact and flips the rounded
difference. -/
theorem flsub_anti (p q : ℚ) : flmul (-1) (flsub q p) = flsub p q := by
  simp only [flmul, flsub]
  rw [neg_one_mul, rnd_neg, rnd_rnd, ← rnd_neg, neg_sub]

theorem cross_product_coords (a b : Vector) (a0 a1 a2 b0 b1 b2 : ℚ)
    (hA : a.coordinates = [a0, a1, a2]) (hB : b.coordinates = [b0, b1, b2]) :
    a.cross_product b = Except.ok ⟨"",
      [flsub (flmul a1 b2) (flmul a2 b1),
       flsub (flmul a2 b0) (flmul a0 b2),
       flsub (flmul a0 b1) (flmul a1 b0)]⟩ := by
  obtain ⟨an, ac⟩ := a
  obtain ⟨bn, bc⟩ := b
  simp only at hA hB
  subst hA hB
  rfl

/-- The binary64 value of Python `0.1 * 3` (`0.30000000000000004`). -/
def q3tenths : ℚ := 5404319552844596 / 2 ^ 54

/-- The binary64 value of Python `0.1 * 7` (`0.7000000000000001`). -/
def q7tenths : ℚ := 6305039478318695 / 2 ^ 53

/-- C7 counterexample: with `A = [3, 7, 0]` and `B = A * 0.1` (so `B` is
literally `A.mul q01` and the parallel hypothesis holds), the float cross
product is `[0, 0, -2^-51]` (`-4.44e-16` in Python), not the zero vector:
rounding in `3 * 0.7000000000000001` versus `7 * 0.30000000000000004`
leaves a one-ulp residue. -/
theorem cross_product_parallel_cex :
    (⟨"B", [q3tenths, q7tenths, 0]⟩ : Vector).eq
        ((⟨"A", [3, 7, 0]⟩ : Vector).mul q01) = true ∧
      ∃ v, (⟨"A", [3, 7, 0]⟩ : Vector).cross_product ⟨"B", [q3tenths, q7tenths, 0]⟩ =
          Except.ok v ∧ v.coordinates ≠ [0, 0, 0] := by
  have hm3 : flmul q01 3 = q3tenths := by
    rw [flmul]
    exact (rnd_eval _ (-2) (by norm_num [q01]) (by norm_num [q01])
      (by norm_num [q01])).trans (by norm_num [rneInt, q01, q3tenths])
  have hm7 : flmul q01 7 = q7tenths := by
    rw [flmul]
    exact (rnd_eval _ (-1) (by norm_num [q01]) (by norm_num [q01])
      (by norm_num [q01])).trans (by norm_num [rneInt, q01, q7tenths])
  have hm0 : flmul q01 0 = 0 := by
    rw [flmul, mul_zero, rnd_zero]
  constructor
  · simp only [Vector.mul, Vector.eq, List.map_cons, List.map_nil, hm3, hm7, hm0]
    simp
  · refine ⟨⟨"", [0, 0, -(1 / 2 ^ 51)]⟩, ?_, by norm_num⟩
    rw [cross_product_coords _ _ 3 7 0 q3tenths q7tenths 0 rfl rfl]
    have c0 : flsub (flmul 7 0) (flmul 0 q7tenths) = 0 := by
      simp only [flmul, flsub, mul_zero, zero_mul, rnd_zero, sub_zero]
    have c1 : flsub (flmul 0 q3tenths) (flmul 3 0) = 0 := by
      simp only [flmul, flsub, mul_zero, zero_mul, rnd_zero, sub_zero]
    have cx : flmul 3 q7tenths = 4728779608739021 / 2 ^ 51 := by
      rw [flmul]
      exact (rnd_eval _ 1 (by norm_num [q7tenths]) (by norm_num [q7tenths])
        (by norm_num [q7tenths])).trans (by norm_num [rneInt, q7tenths])
    have cy : flmul 7 q3tenths = 4728779608739022 / 2 ^ 51 := by
      rw [flmul]
      exact (rnd_eval _ 1 (by norm_num [q3tenths]) (by norm_num [q3tenths])
        (by norm_num [q3tenths])).trans (by norm_num [rneInt, q3tenths])
    have hsmall : rnd (1 / 2 ^ 51) = 1 / 2 ^ 51 :=
      (rnd_eval _ (-51) (by norm_num) (by norm_num) (by norm_num)).trans
        (by norm_num [rneInt])
    have c2 : flsub (flmul 3 q7tenths) (flmul 7 q3tenths) = -(1 / 2 ^ 51) := by
      rw [cx, cy, flsub,
        show (4728779608739021 / 2 ^ 51 : ℚ) - 4728779608739022 / 2 ^ 51 =
          -(1 / 2 ^ 51) by norm_num,
        rnd_neg, hsmall]
    rw [c0, c1, c2]

/-- C7 (amended): under binary64 float semantics, `cross_product` is
anti-commutative for all 3-dimensional vectors (rounded products commute
and scaling a result by -1 is exact); parallel inputs give the zero vector
provided the scalar multiples and the six cross products incur no
rounding — in general rounding leaves a nonzero residue
(`cross_product_parallel_cex`). -/
theorem cross_product_anticomm_and_parallel (a b : Vector)
    (ha : a.dim = 3) (hb : b.dim = 3) :
    (∃ v w, a.cross_product b = Except.ok v ∧ b.cross_product a = Except.ok w ∧
        v.eq (w.mul (-1)) = true) ∧
      (∀ k : ℚ, (∀ x ∈ a.coordinates, rnd (k * x) = k * x) →
        (∀ x ∈ b.coordinates, rnd (k * x) = k * x) →
        (∀ x ∈ a.coordinates, ∀ y ∈ b.coordinates, rnd (x * y) = x * y) →
        (b.eq (a.mul k) = true ∨ a.eq (b.mul k) = true) →
        ∃ v, a.cross_product b = Except.ok v ∧ v.coordinates = [0, 0, 0]) := by
  have ha2 : a.coordinates.length = 3 := ha
  have hb2 : b.coordinates.length = 3 := hb
  obtain ⟨a0, a1, a2, hA⟩ := List.length_eq_three.1 ha2
  obtain ⟨b0, b1, b2, hB⟩ := List.length_eq_three.1 hb2
  constructor
  · refine ⟨_, _, cross_product_coords a b a0 a1 a2 b0 b1 b2 hA hB,
      cross_product_coords b a b0 b1 b2 a0 a1 a2 hB hA, ?_⟩
    simp only [Vector.eq, Vector.mul, List.map_cons, List.map_nil,
      decide_eq_true_eq, List.cons.injEq, and_true]
    refine ⟨?_, ?_, ?_⟩
    · rw [flmul_comm b1 a2, flmul_comm b2 a1, flsub_anti]
    · rw [flmul_comm b2 a0, flmul_comm b0 a2, flsub_anti]
    · rw [flmul_comm b0 a1, flmul_comm b1 a0, flsub_anti]
  · intro k hka hkb hprod hpar
    refine ⟨_, cross_product_coords a b a0 a1 a2 b0 b1 b2 hA hB, ?_⟩
    show [flsub (flmul a1 b2) (flmul a2 b1),
          flsub (flmul a2 b0) (flmul a0 b2),
          flsub (flmul a0 b1) (flmul a1 b0)] = [0, 0, 0]
    rcases hpar with hk | hk
    · simp only [Vector.eq, Vector.mul, hA, hB, List.map_cons, List.map_nil,
        decide_eq_true_eq, List.cons.injEq, and_true] at hk
      obtain ⟨h0, h1, h2⟩ := hk
      have e0 : b0 = k * a0 := by
        rw [h0, flmul, hka a0 (by rw [hA]; simp)]
      have e1 : b1 = k * a1 := by
        rw [h1, flmul, hka a1 (by rw [hA]; simp)]
      have e2 : b2 = k * a2 := by
        rw [h2, flmul, hka a2 (by rw [hA]; simp)]
      have c0 : flsub (flmul a1 b2) (flmul a2 b1) = 0 := by
        rw [flmul, flmul, hprod a1 (by rw [hA]; simp) b2 (by rw [hB]; simp),
          hprod a2 (by rw [hA]; simp) b1 (by rw [hB]; simp), flsub, e1, e2,
          show a1 * (k * a2) - a2 * (k * a1) = 0 by ring, rnd_zero]
      have c1 : flsub (flmul a2 b0) (flmul a0 b2) = 0 := by
        rw [flmul, flmul, hprod a2 (by rw [hA]; simp) b0 (by rw [hB]; simp),
          hprod a0 (by rw [hA]; simp) b2 (by rw [hB]; simp), flsub, e0, e2,
          show a2 * (k * a0) - a0 * (k * a2) = 0 by ring, rnd_zero]
      have c2 : flsub (flmul a0 b1) (flmul a1 b0) = 0 := by
        rw [flmul, flmul, hprod a0 (by rw [hA]; simp) b1 (by rw [hB]; simp),
          hprod a1 (by rw [hA]; simp) b0 (by rw [hB]; simp), flsub, e0, e1,
          show a0 * (k * a1) - a1 * (k * a0) = 0 by ring, rnd_zero]
      rw [c0, c1, c2]
    · simp only [Vector.eq, Vector.mul, hA, hB, List.map_cons, List.map_nil,
        decide_eq_true_eq, List.cons.injEq, and_true] at hk
      obtain ⟨h0, h1, h2⟩ := hk
      have e0 : a0 = k * b0 := by
        rw [h0, flmul, hkb b0 (by rw [hB]; simp)]
      have e1 : a1 = k * b1 := by
        rw [h1, flmul, hkb b1 (by rw [hB]; simp)]
      have e2 : a2 = k * b2 := by
        rw [h2, flmul, hkb b2 (by rw [hB]; simp)]
      have c0 : flsub (flmul a1 b2) (flmul a2 b1) = 0 := by
        rw [flmul, flmul, hprod a1 (by rw [hA]; simp) b2 (by rw [hB]; simp),
          hprod a2 (by rw [hA]; simp) b1 (by rw [hB]; simp), flsub, e1, e2,
          show k * b1 * b2 - k * b2 * b1 = 0 by ring, rnd_zero]
      have c1 : flsub (flmul a2 b0) (flmul a0 b2) = 0 := by
        rw [flmul, flmul, hprod a2 (by rw [hA]; simp) b0 (by rw [hB]; simp),
          hprod a0 (by rw [hA]; simp) b2 (by rw [hB]; simp), flsub, e0, e2,
          show k * b2 * b0 - k * b0 * b2 = 0 by ring, rnd_zero]
      have c2 : flsub (flmul a0 b1) (flmul a1 b0) = 0 := by
        rw [flmul, flmul, hprod a0 (by rw [hA]; simp) b1 (by rw [hB]; simp),
          hprod a1 (by rw [hA]; simp) b0 (by rw [hB]; simp), flsub, e0, e1,
          show k * b0 * b1 - k * b1 * b0 = 0 by ring, rnd_zero]
      rw [c0, c1, c2]

/-- C7 witness: the parallel case evaluated on `[1, 2, 3]` and its exact
double `[2, 4, 6]` — all scalar multiples and products are small integers,
so no rounding occurs and the cross product is the zero vector. -/
theorem cross_product_anticomm_and_parallel_witness :
    ∃ v, (⟨"a", [1, 2, 3]⟩ : Vector).cross_product ⟨"b", [2, 4, 6]⟩ = Except.ok v ∧
      v.coordinates = [0, 0, 0] :=
  (cross_product_anticomm_and_parallel ⟨"a", [1, 2, 3]⟩ ⟨"b", [2, 4, 6]⟩ rfl rfl).2 2
    (by
      intro x hx
      have hx3 : x = 1 ∨ x = 2 ∨ x = 3 := by simpa using hx
      rcases hx3 with rfl | rfl | rfl
      · rw [show (2:ℚ) * 1 = 2 by norm_num]
        exact rnd_two
      · rw [show (2:ℚ) * 2 = 4 by norm_num]
        exact rnd_four
      · rw [show (2:ℚ) * 3 = 6 by norm_num]
        exact rnd_six)
    (by
      intro x hx
      have hx3 : x = 2 ∨ x = 4 ∨ x = 6 := by simpa using hx
      rcases hx3 with rfl | rfl | rfl
      · rw [show (2:ℚ) * 2 = 4 by norm_num]
        exact rnd_four
      · rw [show (2:ℚ) * 4 = 8 by norm_num]
        exact rnd_eight
      · rw [show (2:ℚ) * 6 = 12 by norm_num]
        exact rnd_twelve)
    (by
      intro x hx y hy
      have hx3 : x = 1 ∨ x = 2 ∨ x = 3 := by simpa using hx
      have hy3 : y = 2 ∨ y = 4 ∨ y = 6 := by simpa using hy
      rcases hx3 with rfl | rfl | rfl <;> rcases hy3 with rfl | rfl | rfl <;>
        norm_num <;>
        first
          | exact rnd_two
          | exact rnd_four
          | exact rnd_six
          | exact rnd_eight
          | exact rnd_twelve
          | exact rnd_eighteen)
    (Or.inl (by
      have g1 : flmul 2 (1:ℚ) = 2 := by
        rw [flmul, mul_one]
        exact rnd_two
      have g2 : flmul 2 (2:ℚ) = 4 := by
        rw [flmul, show (2:ℚ) * 2 = 4 by norm_num]
        exact rnd_four
      have g3 : flmul 2 (3:ℚ) = 6 := by
        rw [flmul, show (2:ℚ) * 3 = 6 by norm_num]
        exact rnd_six
      simp only [Vector.mul, Vector.eq, List.map_cons, List.map_nil, g1, g2, g3]
      simp))

/-! ### C8 — delete removes the first uid match -/

theorem searchByUidAux_none (uid : String) (l : List PyMecObject)
    (h : ∀ o ∈ l, o.uid ≠ uid) : ∀ i, searchByUidAux uid l i = none := by
  induction l with
  | nil => intro i; rfl
  | cons o rest ih =>
    intro i
    simp only [searchByUidAux]
    rw [if_neg (h o (by simp))]
    exact ih (fun x hx => h x (by simp [hx])) (i + 1)

theorem searchByUidAux_found (uid : String) (o : PyMecObject)
    (post : List PyMecObject) (ho : o.uid = uid) :
    ∀ (pre : List PyMecObject), (∀ x ∈ pre, x.uid ≠ uid) → ∀ i,
      searchByUidAux uid (pre ++ o :: post) i = some (o, i + pre.length) := by
  intro pre
  induction pre with
  | nil => intro _ i; simp [searchByUidAux, ho]
  | cons x xs ih =>
    intro hpre i
    simp only [List.cons_append, searchByUidAux, List.append_eq]
    rw [if_neg (hpre x (by simp))]
    rw [ih (fun y hy => hpre y (by simp [hy])) (i + 1)]
    have : i + 1 + xs.length = i + (x :: xs).length := by
      simp only [List.length_cons]
      omega
    rw [this]

theorem eraseIdx_append_cons {α : Type} (o : α) (post : List α) :
    ∀ pre : List α, (pre ++ o :: post).eraseIdx pre.length = pre ++ post := by
  intro pre
  induction pre with
  | nil => rfl
  | cons x xs ih =>
    simp only [List.cons_append, List.length_cons, List.eraseIdx_cons_succ, ih]

/-- C8: `delete(obj)` looks up `obj.uid`; when some workspace entry carries
that uid, the first such entry (at the index returned by `search_by_uid`)
is removed and every other entry is kept in order; when no entry carries
it, the call fails (`search_by_uid` returns `None` and subscripting it
raises — the spec's NotFound). -/
theorem delete_removes_first_uid_match (s : PyMecSession) (obj : PyMecObject) :
    ((∀ o ∈ s.workspace, o.uid ≠ obj.uid) →
        s.delete obj = Except.error Err.notFound) ∧
      (∀ pre o post, s.workspace = pre ++ o :: post → o.uid = obj.uid →
        (∀ x ∈ pre, x.uid ≠ obj.uid) →
        s.delete obj = Except.ok { s with workspace := pre ++ post }) := by
  constructor
  · intro h
    simp [PyMecSession.delete, PyMecSession.search_by_uid,
      searchByUidAux_none obj.uid s.workspace h 0]
  · intro pre o post hws ho hpre
    have hfind : s.search_by_uid obj.uid = some (o, pre.length) := by
      unfold PyMecSession.search_by_uid
      rw [hws, searchByUidAux_found obj.uid o post ho pre hpre 0]
      simp
    simp only [PyMecSession.delete, hfind, hws, eraseIdx_append_cons]

/-- C8 witness: deleting `objA` from the concrete workspace
`[objB, objA]` removes exactly the `objA` entry. -/
theorem delete_removes_first_uid_match_witness :
    (⟨[objB, objA], [("pyMec version", "0.0.1")], ⟨none, none, []⟩⟩ :
        PyMecSession).delete objA =
      Except.ok ⟨[objB], [("pyMec version", "0.0.1")], ⟨none, none, []⟩⟩ :=
  (delete_removes_first_uid_match
      ⟨[objB, objA], [("pyMec version", "0.0.1")], ⟨none, none, []⟩⟩ objA).2
    [objB] objA [] rfl rfl (by decide)

/-! ### C5 — is_closed characterisation -/

theorem all_zip_rotate {α : Type} (d : α) (p : α × α → Bool) (l : List α) :
    ((l.zip (l.rotate 1)).all p = true) ↔
      ∀ i < l.length, p (l.getD i d, l.getD ((i + 1) % l.length) d) = true := by
  rw [List.all_eq_true]
  constructor
  · intro h i hi
    have hib : i < (l.zip (l.rotate 1)).length := by
      simp only [List.length_zip, List.length_rotate, min_self]
      exact hi
    have hmem : (l.zip (l.rotate 1))[i] ∈ l.zip (l.rotate 1) := List.getElem_mem hib
    have hx := h _ hmem
    rw [List.getElem_zip, List.getElem_rotate] at hx
    rw [List.getD_eq_getElem l d hi,
      List.getD_eq_getElem l d (Nat.mod_lt _ (by omega))]
    exact hx
  · intro h x hx
    obtain ⟨i, hib, rfl⟩ := List.mem_iff_getElem.1 hx
    have hi : i < l.length := by
      simp only [List.length_zip, List.length_rotate, min_self] at hib
      exact hib
    rw [List.getElem_zip, List.getElem_rotate]
    have hx' := h i hi
    rw [List.getD_eq_getElem l d hi,
      List.getD_eq_getElem l d (Nat.mod_lt _ (by omega))] at hx'
    exact hx'

/-- C5 (spec-modelled `is_closed`): `is_closed()` is true iff the contour
has at least 3 segments and, walking the segment list in order and wrapping
from the last segment back to the first, each segment's end point equals
the next segment's start point under value equality on position
coordinates; and any contour of fewer than 3 segments is not closed. -/
theorem is_closed_characterisation (c : Contour) :
    (c.is_closed = true ↔
      (3 ≤ c.segments.length ∧
        ∀ i < c.segments.length,
          (c.segments.getD i dummySegment).end_.position.coordinates =
            (c.segments.getD ((i + 1) % c.segments.length)
              dummySegment).start.position.coordinates)) ∧
      (c.segments.length < 3 → c.is_closed = false) := by
  constructor
  · unfold Contour.is_closed
    by_cases hlen : c.segments.length < 3
    · rw [if_pos hlen]
      simp only [Bool.false_eq_true, false_iff, not_and]
      intro h3
      omega
    · rw [if_neg hlen]
      rw [all_zip_rotate dummySegment
        (fun p => decide (p.1.end_.position.coordinates = p.2.start.position.coordinates))
        c.segments]
      constructor
      · intro h
        refine ⟨by omega, fun i hi => ?_⟩
        have := h i hi
        simpa using this
      · intro h i hi
        simpa using h.2 i hi
  · intro h
    unfold Contour.is_closed
    rw [if_pos h]

/-- A point at given rational space coordinates (used by witnesses). -/
def pointAt (x y z : ℚ) : Point := ⟨"", ⟨"", [x, y, z]⟩⟩

/-- The closed quadrilateral contour of the repository's `is_closed` test:
corners (0,1,1)-(0,1,2)-(0,2,2)-(0,2,1), four connecting segments. -/
def quadContour : Contour :=
  ⟨"c1", [⟨"s1", pointAt 0 1 1, pointAt 0 1 2⟩,
          ⟨"s2", pointAt 0 1 2, pointAt 0 2 2⟩,
          ⟨"s3", pointAt 0 2 2, pointAt 0 2 1⟩,
          ⟨"s4", pointAt 0 2 1, pointAt 0 1 1⟩]⟩

/-- C5 witness: the characterisation evaluated on the concrete closed
quadrilateral — its cyclic end-to-start walk certifies `is_closed`. -/
theorem is_closed_characterisation_witness : quadContour.is_closed = true :=
  (is_closed_characterisation quadContour).1.mpr (by decide)

/-! ### C4 — search_by_name returns all tied top scorers -/

theorem foldl_max_spec (xs : List Nat) : ∀ x : Nat,
    (x ≤ xs.foldl max x) ∧ (∀ y ∈ xs, y ≤ xs.foldl max x) ∧
      (xs.foldl max x = x ∨ xs.foldl max x ∈ xs) := by
  induction xs with
  | nil =>
    intro x
    simp
  | cons z zs ih =>
    intro x
    obtain ⟨h1, h2, h3⟩ := ih (max x z)
    simp only [List.foldl_cons]
    refine ⟨le_trans (le_max_left x z) h1, ?_, ?_⟩
    · intro y hy
      rcases List.mem_cons.1 hy with rfl | hy'
      · exact le_trans (le_max_right x y) h1
      · exact h2 y hy'
    · rcases h3 with heq | hmem
      · rcases max_choice x z with hx | hz
        · left
          rw [heq, hx]
        · right
          rw [heq, hz]
          exact List.mem_cons_self z zs
      · right
        exact List.mem_cons_of_mem z hmem

theorem pyMax_spec (l : List Nat) (b : Nat) (h : pyMax l = Except.ok b) :
    b ∈ l ∧ ∀ x ∈ l, x ≤ b := by
  cases l with
  | nil => exact absurd h (by simp [pyMax])
  | cons x xs =>
    simp only [pyMax, Except.ok.injEq] at h
    subst h
    obtain ⟨h1, h2, h3⟩ := foldl_max_spec xs x
    refine ⟨?_, ?_⟩
    · rcases h3 with heq | hmem
      · rw [heq]
        exact List.mem_cons_self x xs
      · exact List.mem_cons_of_mem x hmem
    · intro y hy
      rcases List.mem_cons.1 hy with rfl | hy'
      · exact h1
      · exact h2 y hy'

/-- C4: on a workspace whose (external) fuzzy scores against the query have
maximum `best`: `best` really is the maximum of the per-object scores; if
`best < 70` the result is the normal empty list; otherwise the result list
contains exactly the (object, index) pairs whose score equals `best` —
every tie included — with indices strictly increasing, i.e. in workspace
order. -/
theorem search_by_name_top_ties (ratio : String → String → Nat) (s : PyMecSession)
    (name : String) (best : Nat)
    (hbest : pyMax (s.workspace.map (fun o => ratio o.name name)) = Except.ok best) :
    (best ∈ s.workspace.map (fun o => ratio o.name name) ∧
        ∀ sc ∈ s.workspace.map (fun o => ratio o.name name), sc ≤ best) ∧
      (best < 70 → s.search_by_name ratio name = Except.ok []) ∧
      (70 ≤ best → ∃ l, s.search_by_name ratio name = Except.ok l ∧
        (∀ o i, (o, i) ∈ l ↔
          (s.workspace[i]? = some o ∧ ratio o.name name = best)) ∧
        (l.map Prod.snd).Pairwise (fun i j => i < j)) := by
  refine ⟨pyMax_spec _ _ hbest, ?_, ?_⟩
  · intro hlt
    simp only [PyMecSession.search_by_name, hbest]
    rw [if_pos hlt]
  · intro hge
    simp only [PyMecSession.search_by_name, hbest]
    rw [if_neg (by omega)]
    refine ⟨_, rfl, ?_, ?_⟩
    · intro o i
      constructor
      · intro hmem
        rw [List.mem_map] at hmem
        obtain ⟨⟨j, x⟩, hjx, heq⟩ := hmem
        simp only [Prod.mk.injEq] at heq
        obtain ⟨rfl, rfl⟩ := heq
        rw [List.mem_filter] at hjx
        obtain ⟨henum, hsc⟩ := hjx
        rw [List.mem_enum_iff_getElem?] at henum
        exact ⟨henum, by simpa using hsc⟩
      · intro ⟨hget, hsc⟩
        rw [List.mem_map]
        refine ⟨(i, o), ?_, rfl⟩
        rw [List.mem_filter]
        exact ⟨List.mem_enum_iff_getElem?.2 hget, by simpa using hsc⟩
    · have hsub : List.Sublist
          ((s.workspace.enum.filter
            (fun p => decide (ratio p.2.name name = best))).map Prod.fst)
          (s.workspace.enum.map Prod.fst) :=
        List.Sublist.map _ (List.filter_sublist _)
      have hrange : (s.workspace.enum.map Prod.fst).Pairwise (fun i j => i < j) := by
        rw [List.enum_map_fst]
        exact List.pairwise_lt_range _
      have hpw := List.Pairwise.sublist hsub hrange
      rw [List.map_map]
      exact hpw

/-- A concrete exact-match score function standing in for `fuzz.ratio` in
the C4 witness. -/
def ratioW : String → String → Nat := fun a b => if a = b then 100 else 0

/-- A third concrete object whose name ties with `objA`'s. -/
def objA2 : PyMecObject := ⟨"g7h8i9", "alpha"⟩

/-- A concrete session with two tied top scorers for the query "alpha". -/
def sessionC4 : PyMecSession :=
  ⟨[objA, objB, objA2], [("pyMec version", "0.0.1")], ⟨none, none, []⟩⟩

/-- C4 witness: the tied-top-scorers statement evaluated on `sessionC4`
with the exact-match score function and best score 100. -/
theorem search_by_name_top_ties_witness :
    (100 ∈ sessionC4.workspace.map (fun o => ratioW o.name "alpha") ∧
        ∀ sc ∈ sessionC4.workspace.map (fun o => ratioW o.name "alpha"), sc ≤ 100) ∧
      ((100 : Nat) < 70 → sessionC4.search_by_name ratioW "alpha" = Except.ok []) ∧
      (70 ≤ (100 : Nat) → ∃ l, sessionC4.search_by_name ratioW "alpha" = Except.ok l ∧
        (∀ o i, (o, i) ∈ l ↔
          (sessionC4.workspace[i]? = some o ∧ ratioW o.name "alpha" = 100)) ∧
        (l.map Prod.snd).Pairwise (fun i j => i < j)) :=
  search_by_name_top_ties ratioW sessionC4 "alpha" 100 (by rfl)

/-! ### C9 — save/load round trip -/

theorem fsRead_fsWrite_self (fs : FS) (p : String) (sf : SavedFile) :
    fsRead (fsWrite fs p sf) p = some sf := by
  simp [fsRead, fsWrite, List.find?]

theorem saveCore_ok (s : PyMecSession) (f : String) (ow : Bool) (now : Nat)
    (fs fs' : FS) (s1 : PyMecSession)
    (h : saveCore s f ow now fs = (s1, Except.ok fs')) :
    s1 = { s with header := { s.header with filename := some f, savedate := some now } } ∧
      fs' = fsWrite fs f ⟨s1.header_common, s1.header, s1.workspace⟩ := by
  unfold saveCore at h
  by_cases hc : ((fsRead fs f).isSome && !ow) = true
  · rw [if_pos hc] at h
    exact absurd h (by simp)
  · rw [if_neg hc] at h
    simp only [Prod.mk.injEq, Except.ok.injEq] at h
    obtain ⟨h1, h2⟩ := h
    refine ⟨h1.symm, ?_⟩
    rw [← h2, ← h1]

/-- C9: whenever `save_to_file` succeeds (returning session `s1` and
filesystem `fs'`, with resolved path `p`), loading `p` into a fresh empty
session succeeds and yields a workspace with the identical uid sequence and
a header equal to the original apart from the freshly written `filename`
and `savedate`; the common header also round-trips. -/
theorem save_load_round_trip (s : PyMecSession) (fn : Option String) (ow : Bool)
    (now : Nat) (fs fs' : FS) (s1 : PyMecSession) (p : String)
    (hsave : s.save_to_file fn ow now fs = (s1, Except.ok fs'))
    (hp : s1.header.filename = some p) :
    ∃ s2, emptySession.load_file (some p) false fs' = (s2, Except.ok ()) ∧
      s2.workspace.map PyMecObject.uid = s.workspace.map PyMecObject.uid ∧
      s2.header = { s.header with filename := some p, savedate := some now } ∧
      s2.header_common = s.header_common := by
  have hcore : ∃ f, saveCore s f ow now fs = (s1, Except.ok fs') := by
    cases fn with
    | some f =>
      simp only [PyMecSession.save_to_file] at hsave
      exact ⟨f, hsave⟩
    | none =>
      simp only [PyMecSession.save_to_file] at hsave
      cases hf : s.header.filename with
      | some f =>
        rw [hf] at hsave
        exact ⟨f, hsave⟩
      | none =>
        rw [hf] at hsave
        exact absurd hsave (by simp)
  obtain ⟨f, hcore⟩ := hcore
  obtain ⟨hs1, hfs'⟩ := saveCore_ok s f ow now fs fs' s1 hcore
  have hfp : f = p := by
    rw [hs1] at hp
    simpa using hp
  subst hfp
  subst hs1
  refine ⟨⟨s.workspace, s.header_common,
    { s.header with filename := some f, savedate := some now }⟩, ?_, rfl, rfl, rfl⟩
  rw [hfs']
  simp [PyMecSession.load_file, emptySession, loadCore, fsRead_fsWrite_self]

/-- The header of `sessionC1` after a successful save to `"new.pymec"` at
time 7. -/
def headerNew : Header := ⟨some "new.pymec", some 7, [("author", "yr")]⟩

/-- The filesystem after saving `sessionC1` to the fresh path
`"new.pymec"`. -/
def fsNew : FS :=
  (([("new.pymec",
      (⟨[("pyMec version", "0.0.1")], headerNew, [objA]⟩ : SavedFile))] :
    List (String × SavedFile)) : FS)

/-- C9 witness: the round trip evaluated concretely — `sessionC1` saved to
the fresh path `"new.pymec"` at time 7, then loaded into a fresh empty
session. -/
theorem save_load_round_trip_witness :
    ∃ s2, emptySession.load_file (some "new.pymec") false fsNew = (s2, Except.ok ()) ∧
      s2.workspace.map PyMecObject.uid = sessionC1.workspace.map PyMecObject.uid ∧
      s2.header = { sessionC1.header with
        filename := some "new.pymec", savedate := some 7 } ∧
      s2.header_common = sessionC1.header_common :=
  save_load_round_trip sessionC1 (some "new.pymec") false 7 (([] : List (String × SavedFile)) : FS)
    fsNew ⟨[objA], [("pyMec version", "0.0.1")], headerNew⟩ "new.pymec" (by rfl) (by rfl)

end PyMec
